import Mathlib

/-!
# Verification of the LZ77 codec (`LZ77` namespace of the repository)

This file gives a shallow embedding of the repository's LZ77-style
compressor/decompressor and its bit-packed binary serializer, and proves (or
refutes) the specified properties.

Modelling conventions for the JavaScript semantics of the source:
* an input string is a `List Char` of its UTF-16 code units;
* a JS `number` field of a dictionary token is an `Option Nat`
  (`none` models `NaN`, which arises from `"".charCodeAt(0)` and from
  `Number.parseInt` on a digit-free string);
* a token's symbol (a JS string that is one character or `""`) is an
  `Option Char` (`none` models `""`, respectively an absent/`undefined` char);
* `s[i]` on a string, used in string concatenation, yields the 9-character
  text `"undefined"` when `i` is out of range or `NaN`, exactly as JS
  stringifies the `undefined` value;
* `String.prototype.substring(a, b)` clamps both arguments to `[0, length]`,
  converts `NaN` to `0` and swaps them when `a > b`;
* `n.toString(2)` is `Nat.toDigits 2 n` and `NaN.toString(2)` is `"NaN"`;
* `Number.parseInt(s, 2)` takes the longest prefix of binary digits and is
  `NaN` (`none`) when that prefix is empty;
* `String.fromCharCode(n)` truncates to a 16-bit code unit (`NaN` ↦ 0);
* loops whose counter advances by a non-constant step are given explicit
  fuel; every use instantiates the fuel large enough that it never runs out
  on the loops the source actually terminates on.
-/

namespace LZ77

/-- A dictionary token `(distance, length, character)`.
`number` fields are `Option Nat` (`none` = `NaN`), the character is an
`Option Char` (`none` = the empty string `""`). -/
abbrev Tok : Type := Option Nat × Option Nat × Option Char

/-- A token sequence; `Dict` in the source. -/
abbrev Dict : Type := List Tok

/-- `data[i] || ""`: the one-character string at `i`, or `""` out of range. -/
def jsAt (data : List Char) (i : Nat) : Option Char := data[i]?

/-! ## Match finder (the inner loops of `encode_unlimited` / `encode`) -/

/-- One probe of the inner extension loop: does `data[i + k] !== data[j + (k % d)]`
hold?  Out-of-range reads are `undefined`, modelled by `Option Char` inequality. -/
def mismatchAt (data : List Char) (i j d k : Nat) : Bool :=
  ¬ (data[i + k]? = data[(j + k % d)]?)

/-- The extension loop `for (let k = start; k < start + r; k++) { if mismatch break }`:
returns the first `k` at which a mismatch occurs, if any, scanning `r` values
from `start`. -/
def firstMismatch (data : List Char) (i j d : Nat) : Nat → Nat → Option Nat
  | _, 0 => none
  | start, r + 1 =>
    if mismatchAt data i j d start then some start
    else firstMismatch data i j d (start + 1) r

/-- One step of the candidate-source loop body for source position `j`:
`if (data[j] !== data[i]) continue;` then extend and update `best` only when
the extension stops at a mismatch whose index exceeds the current best length. -/
def bestStep (data : List Char) (i kmax : Nat) (best : Nat × Nat) (j : Nat) :
    Nat × Nat :=
  if data[j]? = data[i]? then
    match firstMismatch data i j (i - j) 1 (kmax - 1) with
    | some k => if best.2 < k then (i - j, k) else best
    | none => best
  else best

/-- The loop `for (let j = i - 1; j >= searchLimit; j--)`, expressed by the
number `c` of source positions still to scan: iteration `c + 1` visits
`j = searchLimit + c`. -/
def bestLoop (data : List Char) (i kmax searchLimit : Nat) :
    Nat → Nat × Nat → Nat × Nat
  | 0, best => best
  | c + 1, best =>
    bestLoop data i kmax searchLimit c (bestStep data i kmax best (searchLimit + c))

/-! ## Encoder -/

/-- The shared encoder loop of `encode_unlimited` and `encode`, from cursor
position `i` on, with the per-position search limit and look-ahead limit
supplied as functions of the cursor.  `fuel` bounds the iteration count;
instantiated with `data.length` it never runs out since the cursor strictly
increases. -/
def encodeLoop (data : List Char) (searchLimit kmax : Nat → Nat) :
    Nat → Nat → Dict
  | _, 0 => []
  | i, fuel + 1 =>
    if i < data.length then
      let best := bestLoop data i (kmax i) (searchLimit i) (i - searchLimit i) (0, 0)
      if 0 < best.2 then
        (some best.1, some best.2, jsAt data (i + best.2)) ::
          encodeLoop data searchLimit kmax (i + best.2 + 1) fuel
      else
        (some 0, some 0, jsAt data i) :: encodeLoop data searchLimit kmax (i + 1) fuel
    else []

/-- `LZ77.encode_unlimited`: unbounded search (`searchLimit = 0`) and
unbounded look-ahead (`k < data.length - i`). -/
def encode_unlimited (data : List Char) : Dict :=
  (some 0, some 0, jsAt data 0) ::
    encodeLoop data (fun _ => 0) (fun i => data.length - i) 1 data.length

/-- `LZ77.encode`: windowed search
(`searchLimit = i - searchBuffer > 0 ? i - searchBuffer : 0`, which is
truncated subtraction) and windowed look-ahead
(`lookAheadLimit = min (lookAheadBuffer + 1) (data.length - i)`). -/
def encode (data : List Char) (searchBuffer lookAheadBuffer : Nat) : Dict :=
  (some 0, some 0, jsAt data 0) ::
    encodeLoop data (fun i => i - searchBuffer)
      (fun i => min (lookAheadBuffer + 1) (data.length - i)) 1 data.length

/-! ## Decoder -/

/-- The nine characters JS appends when concatenating `undefined` to a string. -/
def undef : List Char := "undefined".toList

/-- One read `data[offset + (j % distance)]` of the copy loop, as the string
fragment JS appends to `prefix`.  `distance = NaN` makes the offset `NaN`, and
`j % 0` is `NaN`; both give an `undefined` read. -/
def copyRead (out : List Char) (dist : Option Nat) (j : Nat) : List Char :=
  match dist with
  | none => undef
  | some 0 => undef
  | some (d + 1) =>
    let idx : Int := (out.length : Int) - ((d + 1 : Nat) : Int) + ((j % (d + 1) : Nat) : Int)
    if h : 0 ≤ idx ∧ idx.toNat < out.length then [out.get ⟨idx.toNat, h.2⟩]
    else undef

/-- The copy loop `for (let j = 0; j < length; j++) prefix += data[...]`,
building the copied span; `n` is the number of iterations. -/
def copyLoop (out : List Char) (dist : Option Nat) : Nat → List Char
  | 0 => []
  | n + 1 => copyLoop out dist n ++ copyRead out dist n

/-- Number of copy-loop iterations for a `length` field: `j < NaN` is false, so
a `NaN` length runs zero iterations. -/
def lenCount : Option Nat → Nat
  | some l => l
  | none => 0

/-- The string a token's character contributes to the output. -/
def symStr : Option Char → List Char
  | some c => [c]
  | none => []

/-- The decoder's loop body: `data += prefix + character`, where `prefix` is
read from the output as it was before this token. -/
def decodeStep (out : List Char) (t : Tok) : List Char :=
  out ++ copyLoop out t.1 (lenCount t.2.1) ++ symStr t.2.2

/-- `LZ77.decode`. -/
def decode (dict : Dict) : List Char :=
  List.foldl decodeStep [] dict

/-! ## Binary codec -/

/-- `n.toString(2)`. -/
def natToBin (n : Nat) : List Char := Nat.toDigits 2 n

/-- `x.toString(2)` for a JS number that may be `NaN`
(`NaN.toString(2)` is the text `"NaN"`). -/
def numToBinStr : Option Nat → List Char
  | some n => natToBin n
  | none => "NaN".toList

/-- `c.charCodeAt(0)`: the code unit of a one-character string, `NaN` for `""`. -/
def charCodeAt0 : Option Char → Option Nat
  | some c => some c.toNat
  | none => none

/-- `String.prototype.padStart(width, "0")` (pads, never truncates). -/
def jsPadStart (s : List Char) (width : Nat) : List Char :=
  List.replicate (width - s.length) '0' ++ s

/-- `Number.parseInt(s, 2)`: value of the longest prefix of binary digits,
`NaN` (`none`) when there is none. -/
def binVal (s : List Char) : Nat :=
  s.foldl (fun a c => 2 * a + (if c = '1' then 1 else 0)) 0

def isBinDigit (c : Char) : Bool := c = '0' || c = '1'

def jsParseIntBin (s : List Char) : Option Nat :=
  let digits := s.takeWhile isBinDigit
  if digits.isEmpty then none else some (binVal digits)

/-- `String.prototype.substring(a, b)`: arguments clamped to `[0, length]`,
`NaN` treated as `0`, swapped when out of order. -/
def jsSubstring (s : List Char) (a b : Option Nat) : List Char :=
  let x := min (a.getD 0) s.length
  let y := min (b.getD 0) s.length
  (s.drop (min x y)).take (max x y - min x y)

/-- NaN-propagating addition of JS numbers. -/
def jsAdd : Option Nat → Option Nat → Option Nat
  | some a, some b => some (a + b)
  | _, _ => none

/-- NaN-propagating multiplication by a constant. -/
def jsMul (k : Nat) : Option Nat → Option Nat
  | some a => some (k * a)
  | none => none

/-- `String.fromCharCode(n)`: truncation to a 16-bit code unit, `NaN` ↦ 0. -/
def jsFromCharCode (x : Option Nat) : Option Char :=
  some (Char.ofNat ((x.getD 0) % 65536))

/-- `Math.max(d.toString(2).length, l.toString(2).length, c.charCodeAt(0).toString(2).length)`
for one token. -/
def tokMaxBits (t : Tok) : Nat :=
  max (numToBinStr t.1).length
    (max (numToBinStr t.2.1).length (numToBinStr (charCodeAt0 t.2.2)).length)

/-- The first loop of `dict_to_bin`: the largest per-value binary-string
length over the whole sequence. -/
def maxBin (dict : Dict) : Nat :=
  List.foldl (fun m t => max m (tokMaxBits t)) 0 dict

/-- The three fixed-width fields one token contributes to the bit string. -/
def encGroup (bits : Nat) (t : Tok) : List Char :=
  jsPadStart (numToBinStr t.1) bits ++ jsPadStart (numToBinStr t.2.1) bits ++
    jsPadStart (numToBinStr (charCodeAt0 t.2.2)) bits

/-- `LZ77.dict_to_bin`: `bytes = Math.ceil(maxBin / 8)`, a 2-bit header
`bytes.toString(2).padStart(2, "0")`, then the per-token fields. -/
def dict_to_bin (dict : Dict) : List Char :=
  let bytes := (maxBin dict + 7) / 8
  let bits := 8 * bytes
  List.foldl (fun acc t => acc ++ encGroup bits t) (jsPadStart (natToBin bytes) 2) dict

/-- The three `substring`/`parseInt` field reads of one token at offset `i`. -/
def parseTok (bin : List Char) (bits i : Option Nat) : Tok :=
  (jsParseIntBin (jsSubstring bin i (jsAdd i bits)),
   jsParseIntBin (jsSubstring bin (jsAdd i bits) (jsAdd i (jsMul 2 bits))),
   jsFromCharCode (jsParseIntBin (jsSubstring bin (jsAdd i (jsMul 2 bits)) (jsAdd i (jsMul 3 bits)))))

/-- The parse loop `for (let i = 2; i < bin.length; i += bits * 3)`.
A `NaN` counter (possible only after a `NaN` header made the step `NaN`)
fails the loop guard.  `fuel` bounds the iteration count; with a `NaN` or
zero `bits` the source loops forever on a long enough input, which fuel
exhaustion truncates. -/
def parseGroups (bin : List Char) (bits : Option Nat) : Option Nat → Nat → Dict
  | _, 0 => []
  | none, _ + 1 => []
  | some iv, fuel + 1 =>
    if iv < bin.length then
      parseTok bin bits (some iv) ::
        parseGroups bin bits (jsAdd (some iv) (jsMul 3 bits)) fuel
    else []

/-- `LZ77.bin_to_dict`: read the 2-bit header, then parse 3-field groups. -/
def bin_to_dict (bin : List Char) : Dict :=
  let bytes := jsParseIntBin (jsSubstring bin (some 0) (some 2))
  parseGroups bin (jsMul 8 bytes) (some 2) (bin.length + 1)

/-- The fused loop of `decode_from_bin`: parse one 3-field group and
immediately replay it on the output, with the same field reads and the same
copy loop as `decode`. -/
def decodeGroups (bin : List Char) (bits : Option Nat) :
    Option Nat → Nat → List Char → List Char
  | _, 0, out => out
  | none, _ + 1, out => out
  | some iv, fuel + 1, out =>
    if iv < bin.length then
      decodeGroups bin bits (jsAdd (some iv) (jsMul 3 bits)) fuel
        (decodeStep out (parseTok bin bits (some iv)))
    else out

/-- `LZ77.decode_from_bin`. -/
def decode_from_bin (bin : List Char) : List Char :=
  let bytes := jsParseIntBin (jsSubstring bin (some 0) (some 2))
  decodeGroups bin (jsMul 8 bytes) (some 2) (bin.length + 1) []

/-! ## Auxiliary definitions used by the statements and proofs -/

/-- Recursive form of the binary digit string of `n`, convenient for
induction; equals `natToBin` (proved below). -/
def natBits (n : Nat) : List Char :=
  if n < 2 then [Nat.digitChar n]
  else natBits (n / 2) ++ [Nat.digitChar (n % 2)]
decreasing_by exact Nat.div_lt_self (by omega) (by omega)

/-- The number of binary digits of `n` as JS's `n.toString(2).length` produces
it: `0` has one digit, a positive `n` has `log2 n + 1`. -/
def bitLen (n : Nat) : Nat :=
  if n = 0 then 1 else Nat.log2 n + 1

/-- A token all of whose fields are present (no `NaN` number, no `""` symbol). -/
def tokSome (t : Tok) : Bool :=
  t.1.isSome && t.2.1.isSome && t.2.2.isSome

/-- The largest numeric value among a token's distance, length and char code. -/
def tokMaxVal (t : Tok) : Nat :=
  max (t.1.getD 0) (max (t.2.1.getD 0) ((charCodeAt0 t.2.2).getD 0))

/-- The largest numeric value over a whole token sequence. -/
def maxFieldVal (dict : Dict) : Nat :=
  List.foldl (fun m t => max m (tokMaxVal t)) 0 dict

/-- A token that serializes into `bits`-wide fields losslessly: all fields
present, each binary representation fits, and the char code is an actual
UTF-16 code unit. -/
def GoodTok (bits : Nat) (t : Tok) : Prop :=
  ∃ dv lv c, t = (some dv, some lv, some c) ∧
    (natToBin dv).length ≤ bits ∧ (natToBin lv).length ≤ bits ∧
    c.toNat < 65536 ∧ (natToBin c.toNat).length ≤ bits

/-- What the match finder guarantees about a non-trivial best pair `b` found
at cursor `i` with search limit `slv` and look-ahead limit `kv`: it comes
from a candidate source position `j` in range whose first character matches,
all probed extension positions up to `b.2` match cyclically, and the
recorded length stayed below the look-ahead limit. -/
def GoodCand (data : List Char) (slv kv i : Nat) (b : Nat × Nat) : Prop :=
  ∃ j, slv ≤ j ∧ j < i ∧ b.1 = i - j ∧ 1 ≤ b.2 ∧ b.2 < kv ∧
    data[j]? = data[i]? ∧
    ∀ k, 1 ≤ k → k < b.2 → data[(i + k)]? = data[(j + k % (i - j))]?

/-! ## Binary strings: `toString(2)`, `parseInt(·, 2)`, padding -/

theorem toDigitsCore_two (fuel : Nat) :
    ∀ (n : Nat) (acc : List Char), n < 2 ^ fuel → fuel ≠ 0 →
    Nat.toDigitsCore 2 fuel n acc = natBits n ++ acc := by
  induction fuel with
  | zero => intro n acc _ hf; exact absurd rfl hf
  | succ f ih =>
    intro n acc h _
    rw [Nat.toDigitsCore]
    by_cases h2 : n / 2 = 0
    · simp only [h2, if_pos]
      rw [natBits]
      have hn2 : n < 2 := by omega
      simp [hn2, Nat.mod_eq_of_lt hn2]
    · simp only [h2, if_neg]
      have hnge : ¬ n < 2 := by omega
      have hf0 : f ≠ 0 := by
        intro hf; subst hf
        have : n < 2 := by simpa using h
        omega
      rw [ih (n / 2) _ (by
        have h4 : 2 ^ (f + 1) = 2 ^ f * 2 := by ring
        omega) hf0]
      have hn : natBits n = natBits (n / 2) ++ [Nat.digitChar (n % 2)] := by
        rw [natBits]; simp [hnge]
      rw [hn]
      simp

theorem natToBin_eq (n : Nat) : natToBin n = natBits n := by
  have h := toDigitsCore_two (n + 1) n []
  rw [natToBin, Nat.toDigits, h (by
    calc n < 2 ^ n := Nat.lt_two_pow n
      _ ≤ 2 ^ (n + 1) := Nat.pow_le_pow_right (by omega) (by omega)) (by omega)]
  simp

theorem natBits_all_binary (n : Nat) : ∀ c ∈ natBits n, isBinDigit c = true := by
  induction n using Nat.strong_induction_on with
  | _ n ih =>
    rw [natBits]
    by_cases h : n < 2
    · simp only [h, if_pos]
      intro c hc
      interval_cases n <;> simp_all [isBinDigit, Nat.digitChar]
    · simp only [h, if_neg]
      intro c hc
      rcases List.mem_append.1 hc with h1 | h1
      · exact ih (n / 2) (Nat.div_lt_self (by omega) (by omega)) c h1
      · have : c = Nat.digitChar (n % 2) := by simpa using h1
        subst this
        have : n % 2 = 0 ∨ n % 2 = 1 := by omega
        rcases this with h2 | h2 <;> simp [h2, Nat.digitChar, isBinDigit]

theorem natBits_ne_nil (n : Nat) : natBits n ≠ [] := by
  rw [natBits]
  by_cases h : n < 2 <;> simp [h]

/-- The fold computing `parseInt(s, 2)` over the digit string of `n`,
with an arbitrary accumulator. -/
theorem foldl_binVal_natBits (n : Nat) : ∀ a : Nat,
    List.foldl (fun a c => 2 * a + (if c = '1' then 1 else 0)) a (natBits n)
      = a * 2 ^ (natBits n).length + n := by
  induction n using Nat.strong_induction_on with
  | _ n ih =>
    intro a
    rw [natBits]
    by_cases h : n < 2
    · simp only [h, if_pos]
      interval_cases n <;> simp [Nat.digitChar] <;> omega
    · rw [if_neg h]
      rw [List.foldl_append, ih (n / 2) (Nat.div_lt_self (by omega) (by omega)) a]
      have h2 : n % 2 = 0 ∨ n % 2 = 1 := by omega
      simp only [List.length_append, List.length_singleton, List.foldl_cons,
        List.foldl_nil]
      rcases h2 with h2 | h2 <;>
        · simp [h2, Nat.digitChar, pow_succ]
          ring_nf
          omega

theorem binVal_natBits (n : Nat) : binVal (natBits n) = n := by
  unfold binVal
  rw [foldl_binVal_natBits n 0]
  simp

/-- Leading zeros do not change the parsed value. -/
theorem binVal_replicate_zero_append (k : Nat) (s : List Char) :
    binVal (List.replicate k '0' ++ s) = binVal s := by
  unfold binVal
  rw [List.foldl_append]
  have h : ∀ m, List.foldl (fun a c => 2 * a + (if c = '1' then 1 else 0)) 0
      (List.replicate m '0') = 0 := by
    intro m
    induction m with
    | zero => rfl
    | succ m ihm => rw [List.replicate_succ, List.foldl_cons]; simpa using ihm
  rw [h]

theorem binVal_jsPadStart (s : List Char) (w : Nat) :
    binVal (jsPadStart s w) = binVal s :=
  binVal_replicate_zero_append _ s

theorem jsPadStart_length (s : List Char) (w : Nat) :
    (jsPadStart s w).length = max w s.length := by
  simp [jsPadStart]
  omega

theorem jsPadStart_all_binary (s : List Char) (w : Nat)
    (h : ∀ c ∈ s, isBinDigit c = true) :
    ∀ c ∈ jsPadStart s w, isBinDigit c = true := by
  intro c hc
  rcases List.mem_append.1 hc with h1 | h1
  · have : c = '0' := List.eq_of_mem_replicate h1
    subst this; rfl
  · exact h c h1

theorem jsParseIntBin_of_binary (s : List Char) (hne : s ≠ [])
    (h : ∀ c ∈ s, isBinDigit c = true) :
    jsParseIntBin s = some (binVal s) := by
  unfold jsParseIntBin
  rw [List.takeWhile_eq_self_iff.2 h]
  simp [hne]

/-! ## Bit lengths -/

theorem natBits_length (n : Nat) : (natBits n).length = bitLen n := by
  induction n using Nat.strong_induction_on with
  | _ n ih =>
    rw [natBits, bitLen]
    by_cases h : n < 2
    · simp only [h, if_pos]
      interval_cases n <;> simp [Nat.log2]
    · rw [if_neg h]
      have hrec := ih (n / 2) (Nat.div_lt_self (by omega) (by omega))
      rw [bitLen] at hrec
      have hd : ¬ n / 2 = 0 := by omega
      have hl : Nat.log2 n = Nat.log2 (n / 2) + 1 := by
        rw [Nat.log2]
        simp [show 2 ≤ n by omega]
      simp only [List.length_append, List.length_singleton, hrec, if_neg hd,
        if_neg (show ¬ n = 0 by omega), hl]

theorem natToBin_length (n : Nat) : (natToBin n).length = bitLen n := by
  rw [natToBin_eq, natBits_length]

theorem bitLen_le_iff (n k : Nat) (hk : 1 ≤ k) : bitLen n ≤ k ↔ n < 2 ^ k := by
  unfold bitLen
  by_cases h : n = 0
  · subst h
    simp only [if_pos rfl]
    constructor
    · intro _; exact Nat.pos_pow_of_pos k (by omega)
    · intro _; exact hk
  · rw [if_neg h]
    constructor
    · intro hle
      exact (Nat.log2_lt h).1 (by omega)
    · intro hlt
      have := (Nat.log2_lt h).2 hlt
      omega

theorem bitLen_pos (n : Nat) : 1 ≤ bitLen n := by
  unfold bitLen
  by_cases h : n = 0 <;> simp [h]

theorem bitLen_mono : Monotone bitLen := by
  intro m n hmn
  have h1 : n < 2 ^ bitLen n := (bitLen_le_iff n (bitLen n) (bitLen_pos n)).1 le_rfl
  exact (bitLen_le_iff m (bitLen n) (bitLen_pos n)).2 (by omega)

/-! ## `substring` and field extraction -/

/-- In the well-ordered, in-range case, `substring(a, b)` is drop-then-take. -/
theorem jsSubstring_drop_take (s : List Char) (a b : Nat) (hab : a ≤ b)
    (ha : a ≤ s.length) :
    jsSubstring s (some a) (some b) = (s.drop a).take (b - a) := by
  unfold jsSubstring
  simp only [Option.getD_some]
  have hx : min a s.length = a := min_eq_left ha
  rw [hx]
  by_cases hb : b ≤ s.length
  · rw [min_eq_left hb, min_eq_left hab, max_eq_right hab]
  · have hy : min b s.length = s.length := min_eq_right (by omega)
    rw [hy, min_eq_left ha, max_eq_right ha]
    have h1 : (s.drop a).length = s.length - a := List.length_drop a s
    rw [List.take_of_length_le (by omega), List.take_of_length_le (by omega)]

/-- Extracting the field that starts right after `pre` from a concatenation. -/
theorem extract_field (pre f rest : List Char) (bits : Nat) (hf : f.length = bits) :
    jsSubstring (pre ++ (f ++ rest)) (some pre.length) (some (pre.length + bits)) = f := by
  rw [jsSubstring_drop_take _ _ _ (by omega) (by simp)]
  rw [List.drop_left, Nat.add_sub_cancel_left, ← hf, List.take_left]

/-- A padded field has width exactly `bits` and parses back to its value. -/
theorem parse_padded_field (v bits : Nat) (hv : (natToBin v).length ≤ bits) :
    (jsPadStart (natToBin v) bits).length = bits ∧
    jsParseIntBin (jsPadStart (natToBin v) bits) = some v := by
  have hlen : (jsPadStart (natToBin v) bits).length = bits := by
    rw [jsPadStart_length]
    have h1 : 1 ≤ (natToBin v).length := by
      rw [natToBin_length]; exact bitLen_pos v
    omega
  refine ⟨hlen, ?_⟩
  rw [jsParseIntBin_of_binary _ (by
        intro hemp
        rw [hemp] at hlen
        simp at hlen
        rw [← hlen] at hv
        have h1 : 1 ≤ (natToBin v).length := by
          rw [natToBin_length]; exact bitLen_pos v
        omega)
      (jsPadStart_all_binary _ _ (by
        rw [natToBin_eq]; exact natBits_all_binary v))]
  rw [binVal_jsPadStart, natToBin_eq, binVal_natBits]

/-- A field extracted from just after a prefix parses back to its value. -/
theorem parse_field_at (pre rest : List Char) (v bits : Nat)
    (hv : (natToBin v).length ≤ bits) :
    jsParseIntBin (jsSubstring (pre ++ (jsPadStart (natToBin v) bits ++ rest))
      (some pre.length) (some (pre.length + bits))) = some v := by
  obtain ⟨hlen, hparse⟩ := parse_padded_field v bits hv
  rw [extract_field pre _ rest bits hlen, hparse]

/-- Parsing one serialized token out of the stream recovers it. -/
theorem parseTok_encGroup (pre rest : List Char) (bits : Nat)
    (t : Tok) (ht : GoodTok bits t) :
    parseTok (pre ++ (encGroup bits t ++ rest)) (some bits) (some pre.length) = t := by
  obtain ⟨dv, lv, c, rfl, hd, hl, hc16, hcb⟩ := ht
  have hlen1 := (parse_padded_field dv bits hd).1
  have hlen2 := (parse_padded_field lv bits hl).1
  set f1 := jsPadStart (natToBin dv) bits with hf1
  set f2 := jsPadStart (natToBin lv) bits with hf2
  set f3 := jsPadStart (natToBin c.toNat) bits with hf3
  have hbody : encGroup bits (some dv, some lv, some c) ++ rest
      = f1 ++ (f2 ++ (f3 ++ rest)) := by
    simp [encGroup, numToBinStr, charCodeAt0]
  unfold parseTok
  simp only [jsAdd, jsMul, hbody]
  have e1 : pre ++ (f1 ++ (f2 ++ (f3 ++ rest)))
      = (pre ++ f1) ++ (f2 ++ (f3 ++ rest)) := by simp
  have e2 : pre ++ (f1 ++ (f2 ++ (f3 ++ rest)))
      = ((pre ++ f1) ++ f2) ++ (f3 ++ rest) := by simp
  have hL1 : pre.length + bits = (pre ++ f1).length := by simp [hlen1]
  have hL2 : pre.length + 2 * bits = ((pre ++ f1) ++ f2).length := by
    simp [hlen1, hlen2]; ring
  have hI2 : pre.length + 2 * bits = (pre ++ f1).length + bits := by
    simp [hlen1]; ring
  have hI3 : pre.length + 3 * bits = ((pre ++ f1) ++ f2).length + bits := by
    simp [hlen1, hlen2]; ring
  refine Prod.ext ?_ (Prod.ext ?_ ?_)
  · show jsParseIntBin _ = some dv
    rw [parse_field_at pre _ dv bits hd]
  · show jsParseIntBin _ = some lv
    rw [e1, hL1, hI2, parse_field_at (pre ++ f1) _ lv bits hl]
  · show jsFromCharCode _ = some c
    rw [e2, hL2, hI3, parse_field_at ((pre ++ f1) ++ f2) _ c.toNat bits hcb]
    unfold jsFromCharCode
    simp [Nat.mod_eq_of_lt hc16, Char.ofNat_toNat]


/-! ## Serialize / deserialize round trip -/

theorem encGroup_length (bits : Nat) (t : Tok) (ht : GoodTok bits t) :
    (encGroup bits t).length = 3 * bits := by
  obtain ⟨dv, lv, c, rfl, hd, hl, _, hcb⟩ := ht
  have h1 := (parse_padded_field dv bits hd).1
  have h2 := (parse_padded_field lv bits hl).1
  have h3 := (parse_padded_field c.toNat bits hcb).1
  simp [encGroup, numToBinStr, charCodeAt0, h1, h2, h3]
  ring

theorem flatten_encGroup_length (bits : Nat) (toks : Dict)
    (h : ∀ t ∈ toks, GoodTok bits t) :
    ((toks.map (encGroup bits)).flatten).length = 3 * bits * toks.length := by
  induction toks with
  | nil => simp
  | cons t ts ih =>
    simp only [List.map_cons, List.flatten_cons, List.length_append, List.length_cons]
    rw [encGroup_length bits t (h t (by simp)), ih (fun u hu => h u (by simp [hu]))]
    ring

theorem foldl_append_eq_flatten (g : Tok → List Char) :
    ∀ (toks : Dict) (init : List Char),
    List.foldl (fun acc t => acc ++ g t) init toks = init ++ (toks.map g).flatten := by
  intro toks
  induction toks with
  | nil => simp
  | cons t ts ih =>
    intro init
    simp only [List.foldl_cons, List.map_cons, List.flatten_cons, ih, List.append_assoc]

theorem parseGroups_stop (bin : List Char) (bits : Option Nat) (iv fuel : Nat)
    (h : ¬ iv < bin.length) :
    parseGroups bin bits (some iv) fuel = [] := by
  cases fuel with
  | zero => rfl
  | succ f => simp [parseGroups, h]

/-- Parsing a stream that starts, after `pre`, with the serialized groups of
`toks`: the groups are recovered one by one and the parse continues after
them. -/
theorem parseGroups_append (bits : Nat) (hbits : 1 ≤ bits) :
    ∀ (toks : Dict) (pre r : List Char) (fuel : Nat),
    (∀ t ∈ toks, GoodTok bits t) → toks.length < fuel →
    parseGroups (pre ++ ((toks.map (encGroup bits)).flatten ++ r)) (some bits)
        (some pre.length) fuel
      = toks ++ parseGroups (pre ++ ((toks.map (encGroup bits)).flatten ++ r)) (some bits)
          (some (pre.length + 3 * bits * toks.length)) (fuel - toks.length) := by
  intro toks
  induction toks with
  | nil => simp
  | cons t ts ih =>
    intro pre r fuel hgood hfuel
    obtain ⟨f, rfl⟩ : ∃ f, fuel = f + 1 := ⟨fuel - 1, by omega⟩
    have hgt : GoodTok bits t := hgood t (by simp)
    have hgts : ∀ u ∈ ts, GoodTok bits u := fun u hu => hgood u (by simp [hu])
    have hglen : (encGroup bits t).length = 3 * bits := encGroup_length bits t hgt
    have hassoc : (((t :: ts).map (encGroup bits)).flatten ++ r)
        = encGroup bits t ++ ((ts.map (encGroup bits)).flatten ++ r) := by
      simp
    rw [hassoc]
    have hlt : pre.length < (pre ++ (encGroup bits t ++
        ((ts.map (encGroup bits)).flatten ++ r))).length := by
      simp only [List.length_append, hglen]
      omega
    have hstep : parseGroups (pre ++ (encGroup bits t ++ ((ts.map (encGroup bits)).flatten ++ r)))
          (some bits) (some pre.length) (f + 1)
        = parseTok (pre ++ (encGroup bits t ++ ((ts.map (encGroup bits)).flatten ++ r)))
            (some bits) (some pre.length) ::
          parseGroups (pre ++ (encGroup bits t ++ ((ts.map (encGroup bits)).flatten ++ r)))
            (some bits) (some (pre.length + 3 * bits)) f := by
      simp only [parseGroups]
      rw [if_pos hlt]
      simp only [jsAdd, jsMul]
    rw [hstep]
    rw [parseTok_encGroup pre _ bits t hgt]
    have hpre : pre ++ (encGroup bits t ++ ((ts.map (encGroup bits)).flatten ++ r))
        = (pre ++ encGroup bits t) ++ ((ts.map (encGroup bits)).flatten ++ r) := by
      simp
    have hplen : pre.length + 3 * bits = (pre ++ encGroup bits t).length := by
      simp [hglen]
    rw [hpre, hplen, ih (pre ++ encGroup bits t) r f hgts (by simp at hfuel; omega)]
    have harith : (pre ++ encGroup bits t).length + 3 * bits * ts.length
        = pre.length + 3 * bits * (ts.length + 1) := by
      simp [hglen]; ring
    simp only [harith, List.cons_append, List.length_cons]
    rw [show f - ts.length = f + 1 - (ts.length + 1) from by omega]

theorem foldl_max_le_iff :
    ∀ (dict : Dict) (a m : Nat),
    List.foldl (fun m t => max m (tokMaxBits t)) a dict ≤ m ↔
      a ≤ m ∧ ∀ t ∈ dict, tokMaxBits t ≤ m := by
  intro dict
  induction dict with
  | nil => simp
  | cons t ts ih =>
    intro a m
    simp only [List.foldl_cons, ih, List.mem_cons]
    constructor
    · rintro ⟨h1, h2⟩
      exact ⟨by omega, fun u hu => by
        rcases hu with rfl | hu
        · omega
        · exact h2 u hu⟩
    · rintro ⟨h1, h2⟩
      exact ⟨by have := h2 t (Or.inl rfl); omega,
        fun u hu => h2 u (Or.inr hu)⟩

theorem tokMaxBits_le_maxBin (dict : Dict) (t : Tok) (ht : t ∈ dict) :
    tokMaxBits t ≤ maxBin dict := by
  have h := (foldl_max_le_iff dict 0 (maxBin dict)).1 le_rfl
  exact h.2 t ht

theorem maxBin_le (dict : Dict) (m : Nat) (h : ∀ t ∈ dict, tokMaxBits t ≤ m) :
    maxBin dict ≤ m :=
  (foldl_max_le_iff dict 0 m).2 ⟨Nat.zero_le m, h⟩

/-- For a token with all fields present, the per-token maximum of binary
string lengths is the bit length of its largest field value. -/
theorem tokMaxBits_some (dv lv : Nat) (c : Char) :
    tokMaxBits (some dv, some lv, some c)
      = max (bitLen dv) (max (bitLen lv) (bitLen c.toNat)) := by
  simp [tokMaxBits, numToBinStr, charCodeAt0, natToBin_length]

/-- Serialize-then-deserialize is the identity on sequences of tokens whose
distances and lengths are below `2²⁴` and whose symbols are present UTF-16
code units. -/
theorem codec_roundTrip (dict : Dict) (hne : dict ≠ [])
    (hfields : ∀ t ∈ dict, ∃ dv lv c, t = (some dv, some lv, some c) ∧
      dv < 2 ^ 24 ∧ lv < 2 ^ 24 ∧ c.toNat < 65536) :
    bin_to_dict (dict_to_bin dict) = dict := by
  have hmax24 : maxBin dict ≤ 24 := by
    apply maxBin_le
    intro t ht
    obtain ⟨dv, lv, c, rfl, h1, h2, h3⟩ := hfields t ht
    rw [tokMaxBits_some]
    have b1 : bitLen dv ≤ 24 := (bitLen_le_iff dv 24 (by omega)).2 h1
    have b2 : bitLen lv ≤ 24 := (bitLen_le_iff lv 24 (by omega)).2 h2
    have b3 : bitLen c.toNat ≤ 24 := (bitLen_le_iff c.toNat 24 (by omega)).2
      (by omega)
    omega
  have hmax1 : 1 ≤ maxBin dict := by
    obtain ⟨t, ts, rfl⟩ : ∃ t ts, dict = t :: ts := by
      cases dict with
      | nil => exact absurd rfl hne
      | cons t ts => exact ⟨t, ts, rfl⟩
    obtain ⟨dv, lv, c, ht, _, _, _⟩ := hfields t (List.mem_cons_self t ts)
    have h := tokMaxBits_le_maxBin _ _ (List.mem_cons_self t ts)
    have h4 : bitLen dv ≤ tokMaxBits t := by
      rw [ht, tokMaxBits_some]
      exact le_max_left _ _
    have h2 : bitLen dv ≤ maxBin (t :: ts) := le_trans h4 h
    have h3 := bitLen_pos dv
    omega
  set B := (maxBin dict + 7) / 8 with hB
  have hB1 : 1 ≤ B := by omega
  have hB3 : B ≤ 3 := by omega
  have hgood : ∀ t ∈ dict, GoodTok (8 * B) t := by
    intro t ht
    obtain ⟨dv, lv, c, rfl, _, _, h3⟩ := hfields t ht
    have hmb := tokMaxBits_le_maxBin dict _ ht
    rw [tokMaxBits_some] at hmb
    exact ⟨dv, lv, c, rfl, by rw [natToBin_length]; omega,
      by rw [natToBin_length]; omega, h3, by rw [natToBin_length]; omega⟩
  have hhdr : (jsPadStart (natToBin B) 2).length = 2 := by
    rw [jsPadStart_length, natToBin_length]
    have h2 : bitLen B ≤ 2 := (bitLen_le_iff B 2 (by omega)).2 (by omega)
    have h1 := bitLen_pos B
    omega
  have hserial : dict_to_bin dict
      = jsPadStart (natToBin B) 2 ++ ((dict.map (encGroup (8 * B))).flatten ++ []) := by
    unfold dict_to_bin
    rw [← hB, foldl_append_eq_flatten]
    simp
  have hhdrparse : jsParseIntBin (jsSubstring (dict_to_bin dict) (some 0) (some 2))
      = some B := by
    rw [hserial, jsSubstring_drop_take _ 0 2 (by omega) (by omega), List.drop_zero]
    rw [show (2 : Nat) - 0 = (jsPadStart (natToBin B) 2).length from by rw [hhdr]]
    rw [List.take_left]
    exact (parse_padded_field B 2 (by
      rw [natToBin_length]
      exact (bitLen_le_iff B 2 (by omega)).2 (by omega))).2
  unfold bin_to_dict
  rw [hhdrparse]
  show parseGroups (dict_to_bin dict) (jsMul 8 (some B)) (some 2)
    ((dict_to_bin dict).length + 1) = dict
  have hlen : (dict_to_bin dict).length = 2 + 3 * (8 * B) * dict.length := by
    rw [hserial]
    simp [hhdr, flatten_encGroup_length (8 * B) dict hgood]
  rw [show jsMul 8 (some B) = some (8 * B) from rfl]
  rw [show (some 2 : Option Nat) = some (jsPadStart (natToBin B) 2).length from by
    rw [hhdr]]
  conv_lhs => rw [hserial]
  have happ := parseGroups_append (8 * B) (by omega) dict (jsPadStart (natToBin B) 2) []
    ((jsPadStart (natToBin B) 2 ++ ((dict.map (encGroup (8 * B))).flatten ++ [])).length + 1)
    hgood (by
      rw [← hserial, hlen]
      have hmul : dict.length ≤ 3 * (8 * B) * dict.length :=
        Nat.le_mul_of_pos_left _ (by omega)
      omega)
  rw [happ]
  rw [parseGroups_stop]
  · simp
  · rw [← hserial, hlen, hhdr]
    omega

/-! ## Match finder: what a recorded best pair guarantees -/

theorem firstMismatch_spec (data : List Char) (i j d : Nat) :
    ∀ (r start k : Nat), firstMismatch data i j d start r = some k →
    start ≤ k ∧ k < start + r ∧ mismatchAt data i j d k = true ∧
    ∀ m, start ≤ m → m < k → mismatchAt data i j d m = false := by
  intro r
  induction r with
  | zero => intro start k h; exact absurd h (by simp [firstMismatch])
  | succ r ih =>
    intro start k h
    rw [firstMismatch] at h
    by_cases hm : mismatchAt data i j d start
    · rw [if_pos hm] at h
      obtain rfl : start = k := by simpa using h
      exact ⟨le_rfl, by omega, hm, fun m h1 h2 => by omega⟩
    · rw [if_neg hm] at h
      obtain ⟨h1, h2, h3, h4⟩ := ih (start + 1) k h
      refine ⟨by omega, by omega, h3, fun m hm1 hm2 => ?_⟩
      by_cases he : m = start
      · subst he; simpa using hm
      · exact h4 m (by omega) hm2

theorem bestStep_spec (data : List Char) (i kv slv : Nat) (best : Nat × Nat)
    (j : Nat) (hj : j < i) (hjl : slv ≤ j)
    (h : best = (0, 0) ∨ GoodCand data slv kv i best) :
    bestStep data i kv best j = (0, 0) ∨
      GoodCand data slv kv i (bestStep data i kv best j) := by
  unfold bestStep
  by_cases heq : data[j]? = data[i]?
  · rw [if_pos heq]
    cases hfm : firstMismatch data i j (i - j) 1 (kv - 1) with
    | none => exact h
    | some k =>
      show (if best.2 < k then (i - j, k) else best) = (0, 0) ∨
        GoodCand data slv kv i (if best.2 < k then (i - j, k) else best)
      by_cases hlt : best.2 < k
      · rw [if_pos hlt]
        obtain ⟨h1, h2, _, h4⟩ := firstMismatch_spec data i j (i - j) (kv - 1) 1 k hfm
        right
        refine ⟨j, hjl, hj, rfl, h1, by omega, heq, fun m hm1 hm2 => ?_⟩
        have := h4 m hm1 hm2
        simpa [mismatchAt] using this
      · rw [if_neg hlt]
        exact h
  · rw [if_neg heq]
    exact h

theorem bestLoop_spec (data : List Char) (i kv slv : Nat) :
    ∀ (c : Nat) (best : Nat × Nat), c + slv ≤ i →
    (best = (0, 0) ∨ GoodCand data slv kv i best) →
    (bestLoop data i kv slv c best = (0, 0) ∨
      GoodCand data slv kv i (bestLoop data i kv slv c best)) := by
  intro c
  induction c with
  | zero => intro best _ h; exact h
  | succ c ih =>
    intro best hc h
    rw [bestLoop]
    exact ih _ (by omega) (bestStep_spec data i kv slv best (slv + c) (by omega)
      (by omega) h)

/-! ## Decoder replay of an encoder token -/

theorem copyRead_in_range (out : List Char) (d0 j : Nat) (h : d0 + 1 ≤ out.length) :
    copyRead out (some (d0 + 1)) j
      = (out[(out.length - (d0 + 1) + j % (d0 + 1))]?).toList := by
  have hm := Nat.mod_lt j (show 0 < d0 + 1 by omega)
  simp only [copyRead]
  have hc : (0 : Int) ≤ (out.length : Int) - ((d0 + 1 : Nat) : Int)
        + ((j % (d0 + 1) : Nat) : Int) ∧
      ((out.length : Int) - ((d0 + 1 : Nat) : Int)
        + ((j % (d0 + 1) : Nat) : Int)).toNat < out.length := by
    constructor <;> omega
  rw [dif_pos hc]
  have ht : ((out.length : Int) - ((d0 + 1 : Nat) : Int)
      + ((j % (d0 + 1) : Nat) : Int)).toNat
      = out.length - (d0 + 1) + j % (d0 + 1) := by omega
  have hb : out.length - (d0 + 1) + j % (d0 + 1) < out.length := by omega
  rw [List.getElem?_eq_getElem hb]
  simp only [ht, List.get_eq_getElem, Option.toList_some]

theorem copyLoop_take (data : List Char) (i d : Nat) (hd1 : 1 ≤ d) (hdi : d ≤ i)
    (hil : i ≤ data.length) :
    ∀ k, i + k ≤ data.length →
    (∀ m, m < k → data[(i + m)]? = data[((i - d) + m % d)]?) →
    data.take i ++ copyLoop (data.take i) (some d) k = data.take (i + k) := by
  intro k
  induction k with
  | zero => intro _ _; simp [copyLoop]
  | succ k ih =>
    intro hik hmatch
    rw [copyLoop, ← List.append_assoc,
      ih (by omega) (fun m hm => hmatch m (by omega))]
    obtain ⟨d0, rfl⟩ : ∃ d0, d = d0 + 1 := ⟨d - 1, by omega⟩
    have hlen : (data.take i).length = i := by
      rw [List.length_take]; omega
    rw [copyRead_in_range (data.take i) d0 k (by omega), hlen]
    have hidx : i - (d0 + 1) + k % (d0 + 1) < i := by
      have := Nat.mod_lt k (show 0 < d0 + 1 by omega)
      omega
    rw [List.getElem?_take, if_pos hidx]
    have hm := hmatch k (by omega)
    rw [← hm, show i + (k + 1) = (i + k) + 1 from by omega, List.take_succ]

theorem decodeStep_lit (data : List Char) (i : Nat) (hi : i < data.length) :
    decodeStep (data.take i) (some 0, some 0, jsAt data i) = data.take (i + 1) := by
  unfold decodeStep jsAt
  show data.take i ++ copyLoop (data.take i) (some 0) (lenCount (some 0)) ++
    symStr data[i]? = data.take (i + 1)
  rw [show lenCount (some 0) = 0 from rfl,
    show copyLoop (data.take i) (some 0) 0 = [] from rfl,
    List.append_nil, List.getElem?_eq_getElem hi]
  simp only [symStr]
  rw [List.take_succ, List.getElem?_eq_getElem hi]
  simp

theorem decodeStep_match (data : List Char) (i d k : Nat) (hd1 : 1 ≤ d)
    (hdi : d ≤ i) (hik : i + k < data.length)
    (hmatch : ∀ m, m < k → data[(i + m)]? = data[((i - d) + m % d)]?) :
    decodeStep (data.take i) (some d, some k, jsAt data (i + k))
      = data.take (i + k + 1) := by
  unfold decodeStep jsAt
  show data.take i ++ copyLoop (data.take i) (some d) (lenCount (some k)) ++
    symStr data[i + k]? = data.take (i + k + 1)
  rw [show lenCount (some k) = k from rfl]
  rw [copyLoop_take data i d hd1 hdi (by omega) k (by omega) hmatch]
  rw [List.getElem?_eq_getElem hik]
  simp only [symStr]
  rw [show data.take (i + k + 1) = data.take ((i + k) + 1) from rfl, List.take_succ,
    List.getElem?_eq_getElem hik]
  simp

/-! ## Encoder loop: decoding replays the input -/

theorem encodeLoop_succ (data : List Char) (sl kmax : Nat → Nat) (i fuel : Nat)
    (hi : i < data.length) :
    encodeLoop data sl kmax i (fuel + 1)
      = (if 0 < (bestLoop data i (kmax i) (sl i) (i - sl i) (0, 0)).2 then
          (some (bestLoop data i (kmax i) (sl i) (i - sl i) (0, 0)).1,
           some (bestLoop data i (kmax i) (sl i) (i - sl i) (0, 0)).2,
           jsAt data (i + (bestLoop data i (kmax i) (sl i) (i - sl i) (0, 0)).2)) ::
            encodeLoop data sl kmax
              (i + (bestLoop data i (kmax i) (sl i) (i - sl i) (0, 0)).2 + 1) fuel
        else
          (some 0, some 0, jsAt data i) :: encodeLoop data sl kmax (i + 1) fuel) := by
  rw [encodeLoop, if_pos hi]

theorem encodeLoop_stop (data : List Char) (sl kmax : Nat → Nat) (i fuel : Nat)
    (hi : ¬ i < data.length) :
    encodeLoop data sl kmax i fuel = [] := by
  cases fuel with
  | zero => rfl
  | succ f => rw [encodeLoop, if_neg hi]

theorem foldl_decode_encodeLoop (data : List Char) (sl kmax : Nat → Nat)
    (hsl : ∀ n, sl n ≤ n) (hk : ∀ i, kmax i ≤ data.length - i) :
    ∀ fuel i, 1 ≤ i → data.length ≤ i + fuel →
    List.foldl decodeStep (data.take i) (encodeLoop data sl kmax i fuel) = data := by
  intro fuel
  induction fuel with
  | zero =>
    intro i _ h2
    rw [encodeLoop]
    rw [List.foldl_nil, List.take_of_length_le (by omega)]
  | succ fuel ih =>
    intro i h1 h2
    by_cases hi : i < data.length
    · rw [encodeLoop_succ data sl kmax i fuel hi]
      have hspec := bestLoop_spec data i (kmax i) (sl i) (i - sl i) (0, 0)
        (by have := hsl i; omega) (Or.inl rfl)
      set best := bestLoop data i (kmax i) (sl i) (i - sl i) (0, 0) with hbdef
      by_cases hb : 0 < best.2
      · rw [if_pos hb]
        rcases hspec with h0 | hgood
        · rw [h0] at hb; simp at hb
        · obtain ⟨j, hj1, hj2, hb1, hk1, hk2, heq, hmatch⟩ := hgood
          have hkk : best.2 + i < data.length := by
            have := hk i
            omega
          have hd1 : 1 ≤ best.1 := by omega
          have hdi : best.1 ≤ i := by omega
          have hmatch2 : ∀ m, m < best.2 →
              data[(i + m)]? = data[((i - best.1) + m % best.1)]? := by
            intro m hm
            have hij : i - best.1 = j := by omega
            rcases Nat.eq_zero_or_pos m with rfl | hm1
            · rw [hij]
              simpa using heq.symm
            · rw [hij, hb1]
              exact hmatch m hm1 hm
          rw [List.foldl_cons,
            decodeStep_match data i best.1 best.2 hd1 hdi (by omega) hmatch2]
          exact ih (i + best.2 + 1) (by omega) (by omega)
      · rw [if_neg hb]
        rw [List.foldl_cons, decodeStep_lit data i hi]
        exact ih (i + 1) (by omega) (by omega)
    · rw [encodeLoop_stop data sl kmax i (fuel + 1) hi]
      rw [List.foldl_nil, List.take_of_length_le (by omega)]

theorem decodeStep_head (data : List Char) :
    decodeStep [] (some 0, some 0, jsAt data 0) = data.take 1 := by
  cases data with
  | nil => simp [decodeStep, jsAt, copyLoop, lenCount, symStr]
  | cons c cs => simp [decodeStep, jsAt, copyLoop, lenCount, symStr]

/-! ## Encoder loop: shape, bounds and coverage of the emitted tokens -/

theorem encodeLoop_mem (data : List Char) (sl kmax : Nat → Nat)
    (hsl : ∀ n, sl n ≤ n) (hk : ∀ i, kmax i ≤ data.length - i)
    (D L : Nat) (hD : ∀ i, i < data.length → i - sl i ≤ D)
    (hL : ∀ i, kmax i ≤ L) :
    ∀ fuel i t, t ∈ encodeLoop data sl kmax i fuel →
    ∃ dv lv c, t = (some dv, some lv, some c) ∧ c ∈ data ∧ dv ≤ D ∧ lv < max L 1 := by
  intro fuel
  induction fuel with
  | zero => intro i t ht; exact absurd ht (by rw [encodeLoop]; simp)
  | succ fuel ih =>
    intro i t ht
    by_cases hi : i < data.length
    · rw [encodeLoop_succ data sl kmax i fuel hi] at ht
      have hspec := bestLoop_spec data i (kmax i) (sl i) (i - sl i) (0, 0)
        (by have := hsl i; omega) (Or.inl rfl)
      set best := bestLoop data i (kmax i) (sl i) (i - sl i) (0, 0) with hbdef
      by_cases hb : 0 < best.2
      · rw [if_pos hb] at ht
        rcases List.mem_cons.1 ht with rfl | ht2
        · rcases hspec with h0 | hgood
          · rw [h0] at hb; simp at hb
          · obtain ⟨j, hj1, hj2, hb1, hk1, hk2, heq, hmatch⟩ := hgood
            have hkk : i + best.2 < data.length := by
              have := hk i
              omega
            refine ⟨best.1, best.2, data.get ⟨i + best.2, hkk⟩, ?_, ?_, ?_, ?_⟩
            · rw [jsAt, List.getElem?_eq_getElem hkk]
              simp [List.get_eq_getElem]
            · exact List.get_mem data _ _
            · have := hD i hi
              omega
            · have := hL i
              omega
        · exact ih _ t ht2
      · rw [if_neg hb] at ht
        rcases List.mem_cons.1 ht with rfl | ht2
        · refine ⟨0, 0, data.get ⟨i, hi⟩, ?_, ?_, ?_, ?_⟩
          · rw [jsAt, List.getElem?_eq_getElem hi]
            simp [List.get_eq_getElem]
          · exact List.get_mem data _ _
          · omega
          · omega
        · exact ih _ t ht2
    · rw [encodeLoop_stop data sl kmax i (fuel + 1) hi] at ht
      exact absurd ht (by simp)

theorem encodeLoop_sum (data : List Char) (sl kmax : Nat → Nat)
    (hsl : ∀ n, sl n ≤ n) (hk : ∀ i, kmax i ≤ data.length - i) :
    ∀ fuel i, 1 ≤ i → i ≤ data.length → data.length ≤ i + fuel →
    ((encodeLoop data sl kmax i fuel).map (fun t => lenCount t.2.1 + 1)).sum
      = data.length - i := by
  intro fuel
  induction fuel with
  | zero =>
    intro i _ h2 h3
    rw [encodeLoop]
    simp
    omega
  | succ fuel ih =>
    intro i h1 h2 h3
    by_cases hi : i < data.length
    · rw [encodeLoop_succ data sl kmax i fuel hi]
      have hspec := bestLoop_spec data i (kmax i) (sl i) (i - sl i) (0, 0)
        (by have := hsl i; omega) (Or.inl rfl)
      set best := bestLoop data i (kmax i) (sl i) (i - sl i) (0, 0) with hbdef
      by_cases hb : 0 < best.2
      · rw [if_pos hb]
        rcases hspec with h0 | hgood
        · rw [h0] at hb; simp at hb
        · obtain ⟨j, hj1, hj2, hb1, hk1, hk2, heq, hmatch⟩ := hgood
          have hkk : i + best.2 < data.length := by
            have := hk i
            omega
          rw [List.map_cons, List.sum_cons,
            ih (i + best.2 + 1) (by omega) (by omega) (by omega)]
          show lenCount (some best.2) + 1 + (data.length - (i + best.2 + 1))
            = data.length - i
          rw [show lenCount (some best.2) = best.2 from rfl]
          omega
      · rw [if_neg hb]
        rw [List.map_cons, List.sum_cons, ih (i + 1) (by omega) (by omega) (by omega)]
        show lenCount (some 0) + 1 + (data.length - (i + 1)) = data.length - i
        rw [show lenCount (some 0) = 0 from rfl]
        omega
    · rw [encodeLoop_stop data sl kmax i (fuel + 1) hi]
      simp
      omega

/-! ## The fused binary decoder equals parse-then-decode -/

theorem decodeGroups_foldl (bin : List Char) (bits : Option Nat) :
    ∀ (fuel : Nat) (i : Option Nat) (out : List Char),
    decodeGroups bin bits i fuel out
      = List.foldl decodeStep out (parseGroups bin bits i fuel) := by
  intro fuel
  induction fuel with
  | zero => intro i out; cases i <;> rfl
  | succ f ih =>
    intro i out
    cases i with
    | none => rfl
    | some iv =>
      by_cases h : iv < bin.length
      · rw [decodeGroups, if_pos h, parseGroups, if_pos h, List.foldl_cons, ih]
      · rw [decodeGroups, if_neg h, parseGroups, if_neg h, List.foldl_nil]

/-! ## Header value of a serialized stream -/

theorem maxBin_cons (t : Tok) (ts : Dict) :
    maxBin (t :: ts) = List.foldl (fun m u => max m (tokMaxBits u)) (tokMaxBits t) ts := by
  unfold maxBin
  rw [List.foldl_cons, Nat.zero_max]

theorem maxFieldVal_cons (t : Tok) (ts : Dict) :
    maxFieldVal (t :: ts)
      = List.foldl (fun m u => max m (tokMaxVal u)) (tokMaxVal t) ts := by
  unfold maxFieldVal
  rw [List.foldl_cons, Nat.zero_max]

theorem tokMaxBits_eq_bitLen (t : Tok) (h : tokSome t = true) :
    tokMaxBits t = bitLen (tokMaxVal t) := by
  obtain ⟨x, y, z⟩ := t
  simp only [tokSome, Bool.and_eq_true, Option.isSome_iff_exists] at h
  obtain ⟨⟨⟨dv, rfl⟩, ⟨lv, rfl⟩⟩, ⟨c, rfl⟩⟩ := h
  rw [tokMaxBits_some]
  show _ = bitLen (max dv (max lv ((charCodeAt0 (some c)).getD 0)))
  rw [show (charCodeAt0 (some c)).getD 0 = c.toNat from rfl]
  rw [bitLen_mono.map_max, bitLen_mono.map_max]

theorem foldl_maxBits_bitLen :
    ∀ (ts : Dict) (a : Nat), (∀ t ∈ ts, tokSome t = true) →
    List.foldl (fun m t => max m (tokMaxBits t)) (bitLen a) ts
      = bitLen (List.foldl (fun m t => max m (tokMaxVal t)) a ts) := by
  intro ts
  induction ts with
  | nil => intro a _; rfl
  | cons t ts ih =>
    intro a h
    rw [List.foldl_cons, List.foldl_cons,
      tokMaxBits_eq_bitLen t (h t (by simp)), ← bitLen_mono.map_max,
      ih (max a (tokMaxVal t)) (fun u hu => h u (by simp [hu]))]

theorem maxBin_eq_bitLen (dict : Dict) (hne : dict ≠ [])
    (hsome : ∀ t ∈ dict, tokSome t = true) :
    maxBin dict = bitLen (maxFieldVal dict) := by
  obtain ⟨t, ts, rfl⟩ : ∃ t ts, dict = t :: ts := by
    cases dict with
    | nil => exact absurd rfl hne
    | cons t ts => exact ⟨t, ts, rfl⟩
  rw [maxBin_cons, maxFieldVal_cons, tokMaxBits_eq_bitLen t (hsome t (by simp)),
    foldl_maxBits_bitLen ts (tokMaxVal t) (fun u hu => hsome u (by simp [hu]))]

theorem dict_to_bin_header (dict : Dict) (h1 : 1 ≤ maxBin dict)
    (h24 : maxBin dict ≤ 24) :
    jsParseIntBin (jsSubstring (dict_to_bin dict) (some 0) (some 2))
      = some ((maxBin dict + 7) / 8) := by
  set B := (maxBin dict + 7) / 8 with hB
  have hhdr : (jsPadStart (natToBin B) 2).length = 2 := by
    rw [jsPadStart_length, natToBin_length]
    have h2 : bitLen B ≤ 2 := (bitLen_le_iff B 2 (by omega)).2 (by omega)
    have h3 := bitLen_pos B
    omega
  have hserial : dict_to_bin dict
      = jsPadStart (natToBin B) 2 ++ (dict.map (encGroup (8 * B))).flatten := by
    unfold dict_to_bin
    rw [← hB, foldl_append_eq_flatten]
  rw [hserial, jsSubstring_drop_take _ 0 2 (by omega) (by omega), List.drop_zero]
  rw [show (2 : Nat) - 0 = (jsPadStart (natToBin B) 2).length from by rw [hhdr]]
  rw [List.take_left]
  exact (parse_padded_field B 2 (by
    rw [natToBin_length]
    exact (bitLen_le_iff B 2 (by omega)).2 (by omega))).2

/-! ## The claims -/

/-- C1.  Encode/decode round-trip: for every finite symbol sequence `d`
(including the empty one), `decode (encode_unlimited d) = d`, and for all
positive window sizes `w1, w2`, `decode (encode d w1 w2) = d`. -/
theorem c1_encode_decode_roundTrip (d : List Char) (w1 w2 : Nat)
    (hw1 : 0 < w1) (hw2 : 0 < w2) :
    decode (encode_unlimited d) = d ∧ decode (encode d w1 w2) = d := by
  constructor
  · unfold decode encode_unlimited
    rw [List.foldl_cons, decodeStep_head]
    exact foldl_decode_encodeLoop d (fun _ => 0) (fun i => d.length - i)
      (fun n => Nat.zero_le n) (fun i => le_rfl) d.length 1 le_rfl (by omega)
  · unfold decode encode
    rw [List.foldl_cons, decodeStep_head]
    exact foldl_decode_encodeLoop d (fun i => i - w1)
      (fun i => min (w2 + 1) (d.length - i))
      (fun n => by show n - w1 ≤ n; omega) (fun i => min_le_right _ _)
      d.length 1 le_rfl (by omega)

theorem c1_encode_decode_roundTrip_witness :
    (0 < 2 ∧ 0 < 2) ∧
    (decode (encode_unlimited ['a', 'b', 'a', 'b', 'a']) = ['a', 'b', 'a', 'b', 'a'] ∧
     decode (encode ['a', 'b', 'a', 'b', 'a'] 2 2) = ['a', 'b', 'a', 'b', 'a']) :=
  ⟨⟨by decide, by decide⟩,
    c1_encode_decode_roundTrip ['a', 'b', 'a', 'b', 'a'] 2 2 (by decide) (by decide)⟩

/-- C2 (counterexample).  The unbounded encoder applied to `"aaaa"` does not
return `[(0,0,'a'), (1,3,'')]`: the inner extension loop records a candidate
length only when it stops at a mismatch, never when it runs off the end of
the data, so the run of `'a'`s is never turned into a back-reference. -/
theorem c2_encode_aaaa_counterexample :
    encode_unlimited "aaaa".toList
      ≠ [(some 0, some 0, some 'a'), (some 1, some 3, none)] := by
  decide

/-- C2 (amended).  `encode_unlimited "aaaa"` actually returns four literal
tokens; `decode` does map `[(0,0,'a'), (1,3,'')]` back to `"aaaa"`, and the
round trip through the actual encoder output also reproduces `"aaaa"`. -/
theorem c2_encode_aaaa_amended :
    encode_unlimited "aaaa".toList
      = [(some 0, some 0, some 'a'), (some 0, some 0, some 'a'),
         (some 0, some 0, some 'a'), (some 0, some 0, some 'a')] ∧
    decode [(some 0, some 0, some 'a'), (some 1, some 3, none)] = "aaaa".toList ∧
    decode (encode_unlimited "aaaa".toList) = "aaaa".toList := by
  refine ⟨by decide, by decide, by decide⟩

/-- C3 (counterexample).  The serialize/deserialize round trip fails on the
single-token sequence produced for empty input: its token is `(0, 0, "")`,
the empty symbol has char code `NaN`, which serializes as the text `"NaN"`
and deserializes as the NUL character, not as the empty symbol. -/
theorem c3_serialize_empty_counterexample :
    bin_to_dict (dict_to_bin (encode_unlimited []))
      ≠ encode_unlimited [] := by
  decide

/-- C3 (amended).  For encoder outputs on a **non-empty** input whose
symbols are UTF-16 code units and whose length keeps every distance/length
below `2²⁴`, `bin_to_dict (dict_to_bin t) = t` for both encoders. -/
theorem c3_serialize_roundTrip_amended (d : List Char) (w1 w2 : Nat)
    (hne : d ≠ []) (hbmp : ∀ c ∈ d, c.toNat < 65536)
    (hlen : d.length ≤ 2 ^ 24) :
    bin_to_dict (dict_to_bin (encode_unlimited d)) = encode_unlimited d ∧
    bin_to_dict (dict_to_bin (encode d w1 w2)) = encode d w1 w2 := by
  have hlen1 : 1 ≤ d.length := List.length_pos.2 hne
  have hhead : ∀ t ∈ ([(some 0, some 0, jsAt d 0)] : Dict),
      ∃ dv lv c, t = (some dv, some lv, some c) ∧
        dv < 2 ^ 24 ∧ lv < 2 ^ 24 ∧ c.toNat < 65536 := by
    intro t ht
    rw [List.mem_singleton] at ht
    subst ht
    obtain ⟨c0, cs, rfl⟩ : ∃ c0 cs, d = c0 :: cs := by
      cases d with
      | nil => exact absurd rfl hne
      | cons c0 cs => exact ⟨c0, cs, rfl⟩
    exact ⟨0, 0, c0, by simp [jsAt], by norm_num, by norm_num, hbmp c0 (by simp)⟩
  constructor
  · apply codec_roundTrip _ (by simp [encode_unlimited])
    intro t ht
    unfold encode_unlimited at ht
    rcases List.mem_cons.1 ht with rfl | ht2
    · exact hhead _ (by simp)
    · obtain ⟨dv, lv, c, rfl, hc, hdv, hlv⟩ := encodeLoop_mem d (fun _ => 0)
        (fun i => d.length - i) (fun n => Nat.zero_le n) (fun i => le_rfl)
        (d.length - 1) d.length (fun i hi => by show i - 0 ≤ d.length - 1; omega)
        (fun i => by show d.length - i ≤ d.length; omega)
        d.length 1 _ ht2
      exact ⟨dv, lv, c, rfl, by omega, by omega, hbmp c hc⟩
  · apply codec_roundTrip _ (by simp [encode])
    intro t ht
    unfold encode at ht
    rcases List.mem_cons.1 ht with rfl | ht2
    · exact hhead _ (by simp)
    · obtain ⟨dv, lv, c, rfl, hc, hdv, hlv⟩ := encodeLoop_mem d (fun i => i - w1)
        (fun i => min (w2 + 1) (d.length - i)) (fun n => by show n - w1 ≤ n; omega)
        (fun i => min_le_right _ _)
        (d.length - 1) d.length (fun i hi => by show i - (i - w1) ≤ d.length - 1; omega)
        (fun i => le_trans (min_le_right _ _) (by show d.length - i ≤ d.length; omega))
        d.length 1 _ ht2
      exact ⟨dv, lv, c, rfl, by omega, by omega, hbmp c hc⟩

theorem c3_serialize_roundTrip_amended_witness :
    (['a', 'b'] ≠ ([] : List Char) ∧ (∀ c ∈ ['a', 'b'], c.toNat < 65536) ∧
      List.length ['a', 'b'] ≤ 2 ^ 24) ∧
    (bin_to_dict (dict_to_bin (encode_unlimited ['a', 'b']))
        = encode_unlimited ['a', 'b'] ∧
     bin_to_dict (dict_to_bin (encode ['a', 'b'] 1 1)) = encode ['a', 'b'] 1 1) :=
  ⟨⟨by decide, by decide, by decide⟩,
    c3_serialize_roundTrip_amended ['a', 'b'] 1 1 (by decide) (by decide) (by decide)⟩

/-- C4 (code bug).  On a token sequence whose first back-reference has
`distance` 2 with no prior output beyond one character, `decode` does not
fail: the out-of-range read `data[-1]` is `undefined` and string
concatenation turns it into the literal text `"undefined"`, so `decode`
silently returns `"aundefinedb"`. -/
theorem c4_decode_corrupt_silent :
    decode [(some 0, some 0, some 'a'), (some 2, some 1, some 'b')]
      = "aundefinedb".toList := by
  decide

/-- C5 (code bug).  On a token with `distance = 2²⁴` (bit length 25,
4 byte-groups), `dict_to_bin` does not fail: `padStart` never truncates, so
it silently emits a 3-character header `"100"` followed by 3 × 32-bit
fields (99 characters in total), and re-reading the first 2 header bits
yields the wrong byte-group count 2. -/
theorem c5_dict_to_bin_overflow_silent :
    (dict_to_bin [(some (2 ^ 24), some 0, some 'a')]).take 3 = ['1', '0', '0'] ∧
    (dict_to_bin [(some (2 ^ 24), some 0, some 'a')]).length = 99 ∧
    jsParseIntBin (jsSubstring (dict_to_bin [(some (2 ^ 24), some 0, some 'a')])
      (some 0) (some 2)) = some 2 := by
  refine ⟨by decide, by decide, by decide⟩

/-- C6.  Windowed bounds: every token of `encode d w1 w2` has a present
distance `≤ w1` and a present length `≤ w2 + 1`. -/
theorem c6_windowed_bounds (d : List Char) (w1 w2 : Nat)
    (hw1 : 0 < w1) (hw2 : 0 < w2) :
    ∀ t ∈ encode d w1 w2, ∃ dv lv, t.1 = some dv ∧ t.2.1 = some lv ∧
      dv ≤ w1 ∧ lv ≤ w2 + 1 := by
  intro t ht
  unfold encode at ht
  rcases List.mem_cons.1 ht with rfl | ht2
  · exact ⟨0, 0, rfl, rfl, by omega, by omega⟩
  · obtain ⟨dv, lv, c, rfl, _, hdv, hlv⟩ := encodeLoop_mem d (fun i => i - w1)
      (fun i => min (w2 + 1) (d.length - i)) (fun n => by show n - w1 ≤ n; omega)
      (fun i => min_le_right _ _)
      w1 (w2 + 1) (fun i _ => by show i - (i - w1) ≤ w1; omega)
      (fun i => min_le_left _ _)
      d.length 1 _ ht2
    exact ⟨dv, lv, rfl, rfl, hdv, by omega⟩

theorem c6_windowed_bounds_witness :
    (0 < 1 ∧ 0 < 1) ∧
    (∃ dv lv, ((some 0, some 0, some 'a') : Tok).1 = some dv ∧
      ((some 0, some 0, some 'a') : Tok).2.1 = some lv ∧ dv ≤ 1 ∧ lv ≤ 1 + 1) :=
  ⟨⟨by decide, by decide⟩,
    c6_windowed_bounds ['a', 'a'] 1 1 (by decide) (by decide)
      (some 0, some 0, some 'a') (by decide)⟩

/-- C7 (counterexample).  A token sequence whose largest field value is 130
does **not** select `B = 2`: 130 has bit length 8, so the code computes
`Math.ceil(8 / 8) = 1` and emits the header `"01"`, not `"10"`. -/
theorem c7_width_130_counterexample :
    (dict_to_bin [(some 130, some 7, some 'a')]).take 2 = ['0', '1'] ∧
    (dict_to_bin [(some 130, some 7, some 'a')]).take 2 ≠ ['1', '0'] := by
  refine ⟨by decide, by decide⟩

/-- C7 (amended).  `dict_to_bin` selects the width from the maximum field
value with the bit length of 0 counting as **1** (the string `"0"` has one
character): for a non-empty all-fields-present sequence with values below
`2²⁴`, the emitted header encodes `⌈bitLen(maxFieldVal)/8⌉`.  In particular
a largest value of 130 gives `B = 1` (8-bit fields, header `"01"`) and the
round trip reproduces the fields exactly. -/
theorem c7_width_selection_amended (dict : Dict)
    (hsome : ∀ t ∈ dict, tokSome t = true) (hne : dict ≠ [])
    (hmax : maxFieldVal dict < 2 ^ 24) :
    jsParseIntBin (jsSubstring (dict_to_bin dict) (some 0) (some 2))
      = some ((bitLen (maxFieldVal dict) + 7) / 8) ∧
    (dict_to_bin [(some 130, some 7, some 'a')]).take 2 = ['0', '1'] ∧
    bin_to_dict (dict_to_bin [(some 130, some 7, some 'a')])
      = [(some 130, some 7, some 'a')] := by
  refine ⟨?_, by decide, by decide⟩
  have hmb := maxBin_eq_bitLen dict hne hsome
  rw [← hmb]
  apply dict_to_bin_header
  · rw [hmb]; exact bitLen_pos _
  · rw [hmb]; exact (bitLen_le_iff _ 24 (by omega)).2 hmax

theorem c7_width_selection_amended_witness :
    ((∀ t ∈ ([(some 130, some 7, some 'a')] : Dict), tokSome t = true) ∧
      ([(some 130, some 7, some 'a')] : Dict) ≠ [] ∧
      maxFieldVal [(some 130, some 7, some 'a')] < 2 ^ 24) ∧
    (jsParseIntBin (jsSubstring (dict_to_bin [(some 130, some 7, some 'a')])
        (some 0) (some 2))
      = some ((bitLen (maxFieldVal [(some 130, some 7, some 'a')]) + 7) / 8) ∧
     (dict_to_bin [(some 130, some 7, some 'a')]).take 2 = ['0', '1'] ∧
     bin_to_dict (dict_to_bin [(some 130, some 7, some 'a')])
       = [(some 130, some 7, some 'a')]) :=
  ⟨⟨by decide, by decide, by decide⟩,
    c7_width_selection_amended [(some 130, some 7, some 'a')]
      (by decide) (by decide) (by decide)⟩

/-- C8 (counterexample).  On the bit string `"01" ++ "00000001" ++ "1"`
(8-bit fields, one complete field plus one trailing bit) `bin_to_dict` does
not stop and ignore the trailing bits: its loop runs while **any** bits
remain, so it emits a partial token parsed from clamped substrings —
distance 1, length parsed from the single trailing bit, and symbol from an
empty substring (`parseInt` gives `NaN`, `fromCharCode` gives NUL). -/
theorem c8_trailing_bits_counterexample :
    bin_to_dict "01000000011".toList = [(some 1, some 1, some (Char.ofNat 0))] ∧
    bin_to_dict "01000000011".toList ≠ [] := by
  refine ⟨by decide, by decide⟩

/-- C8 (amended).  For a stream made of a valid header `b ∈ [1,3]`, the
serialized groups of `ts`, and a non-empty trailing remainder shorter than
one group, `bin_to_dict` returns the tokens of the complete groups
**followed by one additional partial token** parsed (with clamped
substrings) from the trailing bits; the trailing bits are consumed, not
ignored. -/
theorem c8_trailing_bits_amended (b : Nat) (ts : Dict) (r : List Char)
    (hb1 : 1 ≤ b) (hb3 : b ≤ 3) (hgood : ∀ t ∈ ts, GoodTok (8 * b) t)
    (hr1 : r ≠ []) (hr2 : r.length < 3 * (8 * b)) :
    bin_to_dict (jsPadStart (natToBin b) 2 ++ ((ts.map (encGroup (8 * b))).flatten ++ r))
      = ts ++ [parseTok
          (jsPadStart (natToBin b) 2 ++ ((ts.map (encGroup (8 * b))).flatten ++ r))
          (some (8 * b)) (some (2 + 3 * (8 * b) * ts.length))] := by
  have hhdr : (jsPadStart (natToBin b) 2).length = 2 := by
    rw [jsPadStart_length, natToBin_length]
    have h2 : bitLen b ≤ 2 := (bitLen_le_iff b 2 (by omega)).2 (by omega)
    have h3 := bitLen_pos b
    omega
  have hflat := flatten_encGroup_length (8 * b) ts hgood
  set bin := jsPadStart (natToBin b) 2 ++ ((ts.map (encGroup (8 * b))).flatten ++ r)
    with hbin
  have hlen : bin.length = 2 + 3 * (8 * b) * ts.length + r.length := by
    rw [hbin]
    simp only [List.length_append, hhdr, hflat]
    omega
  have hrpos : 0 < r.length := List.length_pos.2 hr1
  have hnle : ts.length ≤ 3 * (8 * b) * ts.length :=
    Nat.le_mul_of_pos_left _ (by omega)
  have hhp : jsParseIntBin (jsSubstring bin (some 0) (some 2)) = some b := by
    rw [hbin, jsSubstring_drop_take _ 0 2 (by omega) (by omega), List.drop_zero]
    rw [show (2 : Nat) - 0 = (jsPadStart (natToBin b) 2).length from by rw [hhdr]]
    rw [List.take_left]
    exact (parse_padded_field b 2 (by
      rw [natToBin_length]
      exact (bitLen_le_iff b 2 (by omega)).2 (by omega))).2
  unfold bin_to_dict
  rw [hhp]
  show parseGroups bin (jsMul 8 (some b)) (some 2) (bin.length + 1) = _
  rw [show jsMul 8 (some b) = some (8 * b) from rfl]
  rw [show (some 2 : Option Nat) = some (jsPadStart (natToBin b) 2).length from by
    rw [hhdr]]
  conv_lhs => rw [hbin]
  rw [parseGroups_append (8 * b) (by omega) ts (jsPadStart (natToBin b) 2) r
    ((jsPadStart (natToBin b) 2 ++ ((ts.map (encGroup (8 * b))).flatten ++ r)).length + 1)
    hgood (by rw [← hbin, hlen]; omega)]
  rw [← hbin, hhdr]
  congr 1
  obtain ⟨f, hf⟩ : ∃ f, bin.length + 1 - ts.length = f + 1 :=
    ⟨bin.length - ts.length, by omega⟩
  rw [hf, parseGroups, if_pos (show 2 + 3 * (8 * b) * ts.length < bin.length from by
    rw [hlen]; omega)]
  rw [show jsAdd (some (2 + 3 * (8 * b) * ts.length)) (jsMul 3 (some (8 * b)))
      = some (2 + 3 * (8 * b) * ts.length + 3 * (8 * b)) from rfl]
  rw [parseGroups_stop bin (some (8 * b)) _ f (by rw [hlen]; omega)]

theorem c8_trailing_bits_amended_witness :
    (1 ≤ 1 ∧ (1 : Nat) ≤ 3 ∧ (['1'] : List Char) ≠ [] ∧
      List.length ['1'] < 3 * (8 * 1)) ∧
    bin_to_dict (jsPadStart (natToBin 1) 2 ++
        ((([(some 2, some 3, some 'a')] : Dict).map (encGroup (8 * 1))).flatten ++ ['1']))
      = [(some 2, some 3, some 'a')] ++ [parseTok
          (jsPadStart (natToBin 1) 2 ++
            ((([(some 2, some 3, some 'a')] : Dict).map (encGroup (8 * 1))).flatten ++ ['1']))
          (some (8 * 1))
          (some (2 + 3 * (8 * 1) * List.length ([(some 2, some 3, some 'a')] : Dict)))] :=
  ⟨⟨by decide, by decide, by decide, by decide⟩,
    c8_trailing_bits_amended 1 [(some 2, some 3, some 'a')] ['1'] (by decide) (by decide)
      (by
        intro t ht
        rw [List.mem_singleton] at ht
        subst ht
        exact ⟨2, 3, 'a', rfl, by decide, by decide, by decide, by decide⟩)
      (by decide) (by decide)⟩

/-- C9.  Implicit encoder output invariant: on a non-empty input every
token of either encoder carries a present symbol that is a character of the
input, the per-token spans `length + 1` sum to the input length, and the
empty-symbol sentinel arises exactly as the single token emitted for empty
input. -/
theorem c9_encoder_invariant (d : List Char) (w1 w2 : Nat) (hne : d ≠ []) :
    (∀ t ∈ encode_unlimited d, ∃ c, t.2.2 = some c ∧ c ∈ d) ∧
    (∀ t ∈ encode d w1 w2, ∃ c, t.2.2 = some c ∧ c ∈ d) ∧
    ((encode_unlimited d).map (fun t => lenCount t.2.1 + 1)).sum = d.length ∧
    ((encode d w1 w2).map (fun t => lenCount t.2.1 + 1)).sum = d.length ∧
    encode_unlimited [] = [(some 0, some 0, none)] ∧
    encode [] w1 w2 = [(some 0, some 0, none)] := by
  have hlen1 : 1 ≤ d.length := List.length_pos.2 hne
  obtain ⟨c0, cs, hd⟩ : ∃ c0 cs, d = c0 :: cs := by
    cases d with
    | nil => exact absurd rfl hne
    | cons c0 cs => exact ⟨c0, cs, rfl⟩
  have hhead : ∃ c, ((some 0, some 0, jsAt d 0) : Tok).2.2 = some c ∧ c ∈ d := by
    subst hd
    exact ⟨c0, by simp [jsAt], by simp⟩
  refine ⟨?_, ?_, ?_, ?_, by decide, by rfl⟩
  · intro t ht
    unfold encode_unlimited at ht
    rcases List.mem_cons.1 ht with rfl | ht2
    · exact hhead
    · obtain ⟨dv, lv, c, rfl, hc, _, _⟩ := encodeLoop_mem d (fun _ => 0)
        (fun i => d.length - i) (fun n => Nat.zero_le n) (fun i => le_rfl)
        d.length d.length (fun i hi => by show i - 0 ≤ d.length; omega)
        (fun i => by show d.length - i ≤ d.length; omega)
        d.length 1 _ ht2
      exact ⟨c, rfl, hc⟩
  · intro t ht
    unfold encode at ht
    rcases List.mem_cons.1 ht with rfl | ht2
    · exact hhead
    · obtain ⟨dv, lv, c, rfl, hc, _, _⟩ := encodeLoop_mem d (fun i => i - w1)
        (fun i => min (w2 + 1) (d.length - i)) (fun n => by show n - w1 ≤ n; omega)
        (fun i => min_le_right _ _)
        d.length d.length (fun i hi => by show i - (i - w1) ≤ d.length; omega)
        (fun i => le_trans (min_le_right _ _) (by show d.length - i ≤ d.length; omega))
        d.length 1 _ ht2
      exact ⟨c, rfl, hc⟩
  · unfold encode_unlimited
    rw [List.map_cons, List.sum_cons,
      encodeLoop_sum d (fun _ => 0) (fun i => d.length - i)
        (fun n => Nat.zero_le n) (fun i => le_rfl) d.length 1 le_rfl hlen1 (by omega)]
    show lenCount (some 0) + 1 + (d.length - 1) = d.length
    rw [show lenCount (some 0) = 0 from rfl]
    omega
  · unfold encode
    rw [List.map_cons, List.sum_cons,
      encodeLoop_sum d (fun i => i - w1) (fun i => min (w2 + 1) (d.length - i))
        (fun n => by show n - w1 ≤ n; omega) (fun i => min_le_right _ _)
        d.length 1 le_rfl hlen1 (by omega)]
    show lenCount (some 0) + 1 + (d.length - 1) = d.length
    rw [show lenCount (some 0) = 0 from rfl]
    omega

theorem c9_encoder_invariant_witness :
    (['a', 'b'] : List Char) ≠ [] ∧
    ((∀ t ∈ encode_unlimited ['a', 'b'], ∃ c, t.2.2 = some c ∧ c ∈ ['a', 'b']) ∧
     (∀ t ∈ encode ['a', 'b'] 1 1, ∃ c, t.2.2 = some c ∧ c ∈ ['a', 'b']) ∧
     ((encode_unlimited ['a', 'b']).map (fun t => lenCount t.2.1 + 1)).sum
       = List.length ['a', 'b'] ∧
     ((encode ['a', 'b'] 1 1).map (fun t => lenCount t.2.1 + 1)).sum
       = List.length ['a', 'b'] ∧
     encode_unlimited [] = [(some 0, some 0, none)] ∧
     encode [] 1 1 = [(some 0, some 0, none)]) :=
  ⟨by decide, c9_encoder_invariant ['a', 'b'] 1 1 (by decide)⟩

/-- C10.  The fused binary decoder agrees with parse-then-decode on every
bit string: `decode_from_bin bin = decode (bin_to_dict bin)`. -/
theorem c10_decode_from_bin_eq (bin : List Char) :
    decode_from_bin bin = decode (bin_to_dict bin) := by
  unfold decode_from_bin bin_to_dict decode
  exact decodeGroups_foldl bin
    (jsMul 8 (jsParseIntBin (jsSubstring bin (some 0) (some 2))))
    (bin.length + 1) (some 2) []

end LZ77
